import Mathlib

/-!
# Verification of the LightRAG-SRM indexing and retrieval pipeline

Shallow embedding of the core pipeline in `rag_pipeline.py` (class
`RAGPipeline`), over `List Char` strings.  Pure text processing
(`_split_text`, `_rerank_documents`) is translated directly; the stateful
pipeline (`index_documents`, `delete_document`, `clear_all_documents`,
`_initialize_pipeline`, `_save_index_and_docs`, `_clear_vector_store`) is
modelled as explicit state passing over an in-memory state (document store +
FAISS index row count) and an on-disk state (the two persisted artifacts and
their `.backup` twins), with the unmodelable collaborators (PDF text
extraction, the sentence-transformer embedder, FAISS write success) supplied
as oracles in an environment record.
-/

namespace LightRAG

set_option maxRecDepth 100000

/-- Text is modelled as a list of characters (Python `str`). -/
abbrev Str := List Char

/-- ASCII whitespace as recognised by Python's `str.strip()` / `str.split()`:
space, tab, newline, carriage return, vertical tab, form feed. -/
def pyWS (c : Char) : Bool :=
  c = ' ' || c = '\t' || c = '\n' || c = '\r' || c = '\x0b' || c = '\x0c'

/-- Python `s.lstrip()`. -/
def lstrip (s : Str) : Str := s.dropWhile pyWS

/-- Python `s.rstrip()`. -/
def rstrip (s : Str) : Str := (s.reverse.dropWhile pyWS).reverse

/-- Python `s.strip()`. -/
def pstrip (s : Str) : Str := rstrip (lstrip s)

/-- Python `text.split('\n\n')`: split on leftmost non-overlapping
occurrences of the two-character separator.  `''.split('\n\n') == ['']`. -/
def splitNN : Str → List Str
  | [] => [[]]
  | '\n' :: '\n' :: rest => [] :: splitNN rest
  | c :: rest =>
    match splitNN rest with
    | [] => [[c]]
    | p :: ps => (c :: p) :: ps

/-- The two-character paragraph separator `"\n\n"`. -/
def nn2 : Str := ['\n', '\n']

/-- State of the chunking loop in `_split_text` (rag_pipeline.py:385-432):
the accumulated `chunks`, the running buffer `current_chunk`, and the
separately tracked `current_size` counter. -/
structure SplitState where
  chunks : List Str
  cur : Str
  size : Nat
deriving DecidableEq

/-- Python `s[-chunk_overlap:]`; note that for `chunk_overlap = 0` the slice
`s[-0:]` is the whole string. -/
def overlapOf (chunk_overlap : Nat) (s : Str) : Str :=
  if chunk_overlap = 0 then s else s.drop (s.length - chunk_overlap)

/-- rag_pipeline.py:410:
`chunks[-1][-chunk_overlap:] if len(chunks[-1]) > chunk_overlap else chunks[-1]`. -/
def codeOverlap (chunk_overlap : Nat) (s : Str) : Str :=
  if s.length > chunk_overlap then overlapOf chunk_overlap s else s

/-- One iteration of the `for paragraph in paragraphs` loop of `_split_text`
(rag_pipeline.py:394-422). -/
def splitStep (chunk_size chunk_overlap : Nat) (st : SplitState) (para : Str) :
    SplitState :=
  let p := pstrip para
  if p = [] then st
  else if st.size + p.length > chunk_size ∧ st.cur ≠ [] then
    -- close the current chunk (line 404-405)
    let chunks' := if pstrip st.cur ≠ [] then st.chunks ++ [pstrip st.cur]
                   else st.chunks
    if chunks'.length > 0 then
      -- seed the next buffer with the overlap of the just-closed chunk
      let ov := codeOverlap chunk_overlap (chunks'.getLastD [])
      let cur' := ov ++ nn2 ++ p
      ⟨chunks', cur', cur'.length⟩
    else
      ⟨chunks', p, p.length⟩
  else
    if st.cur ≠ [] then ⟨st.chunks, st.cur ++ nn2 ++ p, st.size + p.length + 2⟩
    else ⟨st.chunks, p, st.size + p.length + 2⟩

/-- `RAGPipeline._split_text(text, chunk_size=1200, chunk_overlap=150)`
(rag_pipeline.py:385-432): paragraph-accumulating chunker with overlap
seeding and a hard cap of 2000 chunks. -/
def split_text (text : Str) (chunk_size : Nat := 1200)
    (chunk_overlap : Nat := 150) : List Str :=
  let st := (splitNN text).foldl (splitStep chunk_size chunk_overlap) ⟨[], [], 0⟩
  let chunks := if pstrip st.cur ≠ [] then st.chunks ++ [pstrip st.cur]
                else st.chunks
  chunks.take 2000

/-! ## Facts about Python-style stripping -/

/-- The head of `l`, if any, is not whitespace. -/
def headOK (l : Str) : Prop := ∀ c ∈ l.head?, pyWS c = false

/-- The last character of `l`, if any, is not whitespace. -/
def endsOK (l : Str) : Prop := headOK l.reverse

theorem dropWhile_headOK (p : Char → Bool) (l : Str) :
    ∀ c ∈ (l.dropWhile p).head?, p c = false := by
  induction l with
  | nil => intro c hc; simp at hc
  | cons a t ih =>
    intro c hc
    by_cases ha : p a = true
    · rw [List.dropWhile_cons, if_pos ha] at hc
      exact ih c hc
    · simp at ha
      rw [List.dropWhile_cons, if_neg (by simp [ha])] at hc
      simp at hc
      rw [← hc]
      exact ha

theorem headOK_lstrip (s : Str) : headOK (lstrip s) :=
  fun c hc => dropWhile_headOK pyWS s c hc

theorem lstrip_eq_self_of_headOK {l : Str} (h : headOK l) : lstrip l = l := by
  cases l with
  | nil => rfl
  | cons c t =>
    have hc : pyWS c = false := h c rfl
    simp [lstrip, List.dropWhile_cons, hc]

theorem lstrip_lstrip (s : Str) : lstrip (lstrip s) = lstrip s :=
  lstrip_eq_self_of_headOK (headOK_lstrip s)

theorem headOK_of_lstrip_eq_self {l : Str} (h : lstrip l = l) : headOK l := by
  rw [← h]
  exact headOK_lstrip l

theorem lstrip_append_of_ne {x : Str} (y : Str) (h : lstrip x ≠ []) :
    lstrip (x ++ y) = lstrip x ++ y := by
  unfold lstrip at *
  rw [List.dropWhile_append]
  simp only [List.isEmpty_iff]
  rw [if_neg h]

theorem lstrip_ne_nil_of_mem {s : Str} {c : Char} (hm : c ∈ s)
    (hc : pyWS c = false) : lstrip s ≠ [] := by
  induction s with
  | nil => simp at hm
  | cons a t ih =>
    by_cases ha : pyWS a = true
    · have : c ∈ t := by
        rcases hm with _ | hm
        · rw [ha] at hc; exact absurd hc (by simp)
        · assumption
      simpa [lstrip, List.dropWhile_cons, ha] using ih this
    · simp at ha
      simp [lstrip, List.dropWhile_cons, ha]

theorem mem_of_lstrip_ne_nil {s : Str} (h : lstrip s ≠ []) :
    ∃ c ∈ s, pyWS c = false := by
  induction s with
  | nil => simp [lstrip] at h
  | cons a t ih =>
    by_cases ha : pyWS a = true
    · have h' : lstrip t ≠ [] := by simpa [lstrip, List.dropWhile_cons, ha] using h
      obtain ⟨c, hc, hcw⟩ := ih h'
      exact ⟨c, List.mem_cons_of_mem a hc, hcw⟩
    · simp at ha
      exact ⟨a, List.mem_cons_self a t, ha⟩

theorem rstrip_eq_reverse_lstrip (s : Str) :
    rstrip s = (lstrip s.reverse).reverse := rfl

theorem rstrip_rstrip (s : Str) : rstrip (rstrip s) = rstrip s := by
  rw [rstrip_eq_reverse_lstrip, rstrip_eq_reverse_lstrip s,
    List.reverse_reverse, lstrip_lstrip]

theorem rstrip_eq_self_of_endsOK {s : Str} (h : endsOK s) : rstrip s = s := by
  rw [rstrip_eq_reverse_lstrip, lstrip_eq_self_of_headOK h, List.reverse_reverse]

theorem endsOK_of_rstrip_eq_self {s : Str} (h : rstrip s = s) : endsOK s := by
  apply headOK_of_lstrip_eq_self
  rw [rstrip_eq_reverse_lstrip] at h
  have := congrArg List.reverse h
  rwa [List.reverse_reverse] at this

theorem rstrip_append {x y : Str} (hy : endsOK y) (hyne : y ≠ []) :
    rstrip (x ++ y) = x ++ y := by
  apply rstrip_eq_self_of_endsOK
  unfold endsOK headOK at *
  intro c hc
  rw [List.reverse_append] at hc
  cases hy' : y.reverse with
  | nil => exact absurd (by simpa using hy') hyne
  | cons a t =>
    rw [hy'] at hc
    simp at hc
    subst hc
    exact hy a (by rw [hy']; rfl)

theorem endsOK_append {x y : Str} (hy : endsOK y) (hyne : y ≠ []) :
    endsOK (x ++ y) :=
  endsOK_of_rstrip_eq_self (rstrip_append hy hyne)

theorem endsOK_pstrip (s : Str) : endsOK (pstrip s) :=
  endsOK_of_rstrip_eq_self (by unfold pstrip; exact rstrip_rstrip (lstrip s))

theorem exists_nonWS_of_pstrip_ne_nil {s : Str} (h : pstrip s ≠ []) :
    ∃ c ∈ s, pyWS c = false := by
  apply mem_of_lstrip_ne_nil
  intro hcon
  apply h
  unfold pstrip
  rw [hcon]
  rfl

theorem pstrip_ne_nil_of_mem {s : Str} {c : Char} (hm : c ∈ s)
    (hc : pyWS c = false) : pstrip s ≠ [] := by
  have h2 : lstrip s ≠ [] := lstrip_ne_nil_of_mem hm hc
  cases hls : lstrip s with
  | nil => exact absurd hls h2
  | cons a t =>
    have ha : pyWS a = false := headOK_lstrip s a (by rw [hls]; rfl)
    unfold pstrip rstrip
    rw [hls]
    intro hcon
    have h1 : lstrip (a :: t).reverse = [] := by
      have := congrArg List.reverse hcon
      simpa [lstrip] using this
    exact lstrip_ne_nil_of_mem (s := (a :: t).reverse)
      (List.mem_reverse.mpr (List.mem_cons_self a t)) ha h1

/-- `rstrip` only removes characters from the end: the result is an initial
segment of the input. -/
theorem rstrip_pref (s : Str) : ∃ t, rstrip s ++ t = s := by
  obtain ⟨pre, hpre⟩ := List.dropWhile_suffix (l := s.reverse) pyWS
  refine ⟨pre.reverse, ?_⟩
  have := congrArg List.reverse hpre
  rw [List.reverse_append, List.reverse_reverse] at this
  exact this

theorem headOK_pstrip (s : Str) : headOK (pstrip s) := by
  intro c hc
  obtain ⟨t, ht⟩ := rstrip_pref (lstrip s)
  cases hp : pstrip s with
  | nil => rw [hp] at hc; simp at hc
  | cons a u =>
    rw [hp] at hc
    simp at hc
    subst hc
    have : lstrip s = a :: (u ++ t) := by
      rw [← ht]
      unfold pstrip at hp
      rw [hp]
      simp
    exact headOK_lstrip s a (by rw [this]; rfl)

theorem lstrip_pstrip (s : Str) : lstrip (pstrip s) = pstrip s :=
  lstrip_eq_self_of_headOK (headOK_pstrip s)

theorem pstrip_pstrip (s : Str) : pstrip (pstrip s) = pstrip s := by
  calc pstrip (pstrip s) = rstrip (lstrip (pstrip s)) := rfl
    _ = rstrip (pstrip s) := by rw [lstrip_pstrip]
    _ = pstrip s := by unfold pstrip; exact rstrip_rstrip (lstrip s)

theorem length_lstrip_le (s : Str) : (lstrip s).length ≤ s.length :=
  (List.dropWhile_suffix pyWS).sublist.length_le

theorem length_rstrip_le (s : Str) : (rstrip s).length ≤ s.length := by
  unfold rstrip
  rw [List.length_reverse]
  calc (List.dropWhile pyWS s.reverse).length ≤ s.reverse.length :=
        (List.dropWhile_suffix pyWS).sublist.length_le
    _ = s.length := List.length_reverse s

theorem length_pstrip_le (s : Str) : (pstrip s).length ≤ s.length :=
  le_trans (length_rstrip_le (lstrip s)) (length_lstrip_le s)

theorem pstrip_append {ov r : Str} (hov : lstrip ov ≠ []) (hr : endsOK r)
    (hrne : r ≠ []) : pstrip (ov ++ r) = lstrip ov ++ r := by
  unfold pstrip
  rw [lstrip_append_of_ne r hov, rstrip_append hr hrne]

/-! ## The overlap invariant of the segmenter -/

/-- The spec's overlap region: the last `k` characters of `a`, the whole of
`a` when `a` is no longer than `k`. -/
def claimLast (k : Nat) (s : Str) : Str :=
  if s.length ≤ k then s else s.drop (s.length - k)

/-- The overlap property exactly as the claim states it: the last `k`
characters of chunk `a` appear at the start of the next chunk `b`. -/
def claimOverlap (k : Nat) (a b : Str) : Prop := claimLast k a <+: b

/-- The amended overlap property: the overlap region of `a`, with its leading
whitespace removed, appears at the start of `b`. -/
def amendOverlap (k : Nat) (a b : Str) : Prop := lstrip (claimLast k a) <+: b

theorem headOK_of_shared_head {t s : Str} (h : headOK s)
    (hpr : ∃ u, t ++ u = s) : headOK t := by
  obtain ⟨u, hu⟩ := hpr
  intro c hc
  cases t with
  | nil => simp at hc
  | cons a w =>
    simp at hc
    subst hc
    exact h a (by rw [← hu]; rfl)

theorem endsOK_of_suffix {t s : Str} (h : endsOK s) (hs : ∃ pre, pre ++ t = s) :
    endsOK t := by
  apply headOK_of_shared_head h
  obtain ⟨pre, hpre⟩ := hs
  exact ⟨pre.reverse, by rw [← hpre, List.reverse_append]⟩

theorem exists_nonWS_of_endsOK {s : Str} (h : endsOK s) (hne : s ≠ []) :
    ∃ c ∈ s, pyWS c = false := by
  cases hrev : s.reverse with
  | nil => exact absurd (by simpa using hrev) hne
  | cons a w =>
    refine ⟨a, ?_, h a (by rw [hrev]; rfl)⟩
    rw [← List.mem_reverse, hrev]
    exact List.mem_cons_self a w

theorem codeOverlap_ne_nil {k : Nat} {s : Str} (hne : s ≠ []) :
    codeOverlap k s ≠ [] := by
  unfold codeOverlap overlapOf
  split
  · rename_i hlen
    split
    · exact hne
    · rename_i hk
      intro hcon
      have := congrArg List.length hcon
      simp at this
      omega
  · exact hne

theorem codeOverlap_suffix (k : Nat) (s : Str) :
    ∃ pre, pre ++ codeOverlap k s = s := by
  unfold codeOverlap overlapOf
  split
  · split
    · exact ⟨[], rfl⟩
    · exact ⟨s.take (s.length - k), List.take_append_drop _ s⟩
  · exact ⟨[], rfl⟩

theorem endsOK_codeOverlap {k : Nat} {s : Str} (h : endsOK s) :
    endsOK (codeOverlap k s) :=
  endsOK_of_suffix h (codeOverlap_suffix k s)

theorem lstrip_codeOverlap_ne_nil {k : Nat} {s : Str} (h : endsOK s)
    (hne : s ≠ []) : lstrip (codeOverlap k s) ≠ [] := by
  obtain ⟨c, hc, hcw⟩ := exists_nonWS_of_endsOK (endsOK_codeOverlap h)
    (codeOverlap_ne_nil hne)
  exact lstrip_ne_nil_of_mem hc hcw

/-- For every `k` the claim's overlap region, stripped of leading whitespace,
is an initial segment of the code's seeded overlap, ditto stripped. -/
theorem claimLast_pref_codeOverlap (k : Nat) (s : Str) :
    lstrip (claimLast k s) <+: lstrip (codeOverlap k s) := by
  rcases Nat.eq_zero_or_pos k with hk | hk
  · subst hk
    have : claimLast 0 s = [] ∨ claimLast 0 s = s := by
      unfold claimLast
      split
      · rename_i hle
        exact Or.inr rfl
      · refine Or.inl ?_
        simp
    rcases this with h | h
    · rw [h]; exact List.nil_prefix
    · -- only possible when s = []
      unfold claimLast at h
      split at h
      · rename_i hle
        have : s.length = 0 := Nat.le_zero.mp hle
        have hs : s = [] := List.length_eq_zero.mp this
        subst hs
        exact ⟨[], rfl⟩
      · rename_i hgt
        have := congrArg List.length h
        simp at this
        omega
  · have : claimLast k s = codeOverlap k s := by
      unfold claimLast codeOverlap overlapOf
      have hk' : ¬ k = 0 := Nat.pos_iff_ne_zero.mp hk
      rcases Nat.lt_or_ge k s.length with hlt | hge
      · rw [if_neg (by omega), if_pos (by omega), if_neg hk']
      · rw [if_pos (by omega), if_neg (by omega)]
    rw [this]

/-- Invariant maintained by every iteration of the paragraph loop of
`_split_text`. -/
structure SInv (k : Nat) (st : SplitState) : Prop where
  chunks_good : ∀ c ∈ st.chunks, c ≠ [] ∧ pstrip c = c
  chain : List.Chain' (amendOverlap k) st.chunks
  cur_nil : st.cur = [] → st.chunks = []
  cur_good : st.cur ≠ [] → pstrip st.cur ≠ [] ∧ endsOK st.cur
  link : ∀ lc, st.chunks.getLast? = some lc → amendOverlap k lc (pstrip st.cur)

theorem pstrip_eq_lstrip_of_endsOK {s : Str} (h : endsOK s) :
    pstrip s = lstrip s := by
  unfold pstrip
  apply rstrip_eq_self_of_endsOK
  apply endsOK_of_suffix h
  obtain ⟨pre, hpre⟩ := List.dropWhile_suffix (l := s) pyWS
  exact ⟨pre, hpre⟩

theorem lstrip_ne_nil_of_pstrip_ne_nil {s : Str} (h : pstrip s ≠ []) :
    lstrip s ≠ [] := by
  intro hcon
  apply h
  unfold pstrip
  rw [hcon]
  rfl

/-- Appending a further paragraph to a well-formed nonempty buffer. -/
theorem pstrip_buffer_append {cur p : Str} (hps : pstrip cur ≠ [])
    (hend : endsOK cur) (hp : pstrip p = p) (hpne : p ≠ []) :
    pstrip (cur ++ nn2 ++ p) = pstrip cur ++ (nn2 ++ p) := by
  have hl : lstrip cur ≠ [] := lstrip_ne_nil_of_pstrip_ne_nil hps
  have hpend : endsOK p := by rw [← hp]; exact endsOK_pstrip p
  have hrend : endsOK (nn2 ++ p) := endsOK_append hpend hpne
  have hrne : nn2 ++ p ≠ [] := by simp [nn2]
  rw [List.append_assoc, pstrip_append hl hrend hrne,
    ← pstrip_eq_lstrip_of_endsOK hend]

/-- The freshly seeded buffer after a chunk is closed. -/
theorem pstrip_seeded_buffer {ov p : Str} (hov : lstrip ov ≠ [])
    (hp : pstrip p = p) (hpne : p ≠ []) :
    pstrip (ov ++ nn2 ++ p) = lstrip ov ++ (nn2 ++ p) := by
  have hpend : endsOK p := by rw [← hp]; exact endsOK_pstrip p
  have hrend : endsOK (nn2 ++ p) := endsOK_append hpend hpne
  have hrne : nn2 ++ p ≠ [] := by simp [nn2]
  rw [List.append_assoc, pstrip_append hov hrend hrne]

theorem splitStep_skip (cs k : Nat) (st : SplitState) (para : Str)
    (h : pstrip para = []) : splitStep cs k st para = st := by
  simp [splitStep, h]

theorem splitStep_over (cs k : Nat) (st : SplitState) (para : Str)
    (hp : pstrip para ≠ []) (hsz : st.size + (pstrip para).length > cs)
    (hc : st.cur ≠ []) (hpc : pstrip st.cur ≠ []) :
    splitStep cs k st para =
      ⟨st.chunks ++ [pstrip st.cur],
       codeOverlap k (pstrip st.cur) ++ nn2 ++ pstrip para,
       (codeOverlap k (pstrip st.cur) ++ nn2 ++ pstrip para).length⟩ := by
  simp only [splitStep]
  rw [if_neg hp, if_pos ⟨hsz, hc⟩, if_pos hpc, if_pos (by simp),
    List.getLastD_concat]

theorem splitStep_acc (cs k : Nat) (st : SplitState) (para : Str)
    (hp : pstrip para ≠ [])
    (hno : ¬(st.size + (pstrip para).length > cs ∧ st.cur ≠ []))
    (hc : st.cur ≠ []) :
    splitStep cs k st para =
      ⟨st.chunks, st.cur ++ nn2 ++ pstrip para,
       st.size + (pstrip para).length + 2⟩ := by
  simp only [splitStep]
  rw [if_neg hp, if_neg hno, if_pos hc]

theorem splitStep_fresh (cs k : Nat) (st : SplitState) (para : Str)
    (hp : pstrip para ≠ [])
    (hno : ¬(st.size + (pstrip para).length > cs ∧ st.cur ≠ []))
    (hc : st.cur = []) :
    splitStep cs k st para =
      ⟨st.chunks, pstrip para, st.size + (pstrip para).length + 2⟩ := by
  simp only [splitStep]
  rw [if_neg hp, if_neg hno, if_neg (by simpa using hc)]

theorem sinv_step (cs k : Nat) {st : SplitState} (h : SInv k st) (para : Str) :
    SInv k (splitStep cs k st para) := by
  by_cases hpe : pstrip para = []
  · rw [splitStep_skip cs k st para hpe]; exact h
  · have hpp : pstrip (pstrip para) = pstrip para := pstrip_pstrip para
    have hpend : endsOK (pstrip para) := endsOK_pstrip para
    by_cases hover : st.size + (pstrip para).length > cs ∧ st.cur ≠ []
    · obtain ⟨hsz, hcne⟩ := hover
      obtain ⟨hpcne, hcend⟩ := h.cur_good hcne
      rw [splitStep_over cs k st para hpe hsz hcne hpcne]
      have hlc_strip : pstrip (pstrip st.cur) = pstrip st.cur :=
        pstrip_pstrip st.cur
      have hlc_end : endsOK (pstrip st.cur) := endsOK_pstrip st.cur
      have hlov : lstrip (codeOverlap k (pstrip st.cur)) ≠ [] :=
        lstrip_codeOverlap_ne_nil hlc_end hpcne
      have hseed : pstrip (codeOverlap k (pstrip st.cur) ++ nn2 ++ pstrip para)
          = lstrip (codeOverlap k (pstrip st.cur)) ++ (nn2 ++ pstrip para) :=
        pstrip_seeded_buffer hlov hpp hpe
      refine ⟨?_, ?_, ?_, ?_, ?_⟩
      · intro c hc
        rcases List.mem_append.mp hc with hc | hc
        · exact h.chunks_good c hc
        · simp at hc
          subst hc
          exact ⟨hpcne, hlc_strip⟩
      · apply List.chain'_append.mpr
        refine ⟨h.chain, List.chain'_singleton _, ?_⟩
        intro x hx y hy
        simp at hy
        subst hy
        exact h.link x hx
      · intro hcon
        simp [nn2] at hcon
      · intro _
        constructor
        · rw [hseed]; simp [nn2]
        · exact endsOK_append (by rw [← hpp]; exact endsOK_pstrip (pstrip para))
            hpe
      · intro lc hlc
        rw [List.getLast?_concat] at hlc
        have hlc' : lc = pstrip st.cur := by injection hlc.symm
        subst hlc'
        unfold amendOverlap
        rw [hseed]
        exact (claimLast_pref_codeOverlap k (pstrip st.cur)).trans
          (List.prefix_append _ _)
    · by_cases hcur : st.cur = []
      · rw [splitStep_fresh cs k st para hpe hover hcur]
        have hchunks : st.chunks = [] := h.cur_nil hcur
        refine ⟨?_, ?_, ?_, ?_, ?_⟩
        · intro c hc; rw [hchunks] at hc; simp at hc
        · rw [hchunks]; exact List.chain'_nil
        · intro _; exact hchunks
        · intro _
          exact ⟨by rw [hpp]; exact hpe, by rw [← hpp]; exact endsOK_pstrip _⟩
        · intro lc hlc
          rw [hchunks] at hlc
          simp at hlc
      · rw [splitStep_acc cs k st para hpe hover hcur]
        obtain ⟨hpcne, hcend⟩ := h.cur_good hcur
        have hbuf : pstrip (st.cur ++ nn2 ++ pstrip para)
            = pstrip st.cur ++ (nn2 ++ pstrip para) :=
          pstrip_buffer_append hpcne hcend hpp hpe
        refine ⟨h.chunks_good, h.chain, ?_, ?_, ?_⟩
        · intro hcon
          simp [nn2] at hcon
        · intro _
          constructor
          · rw [hbuf]
            simp
            exact fun h1 _ => absurd h1 hpcne
          · exact endsOK_append (by rw [← hpp]; exact endsOK_pstrip _) hpe
        · intro lc hlc
          have := h.link lc hlc
          unfold amendOverlap at this ⊢
          rw [hbuf]
          exact this.trans (List.prefix_append _ _)

theorem sinv_foldl (cs k : Nat) (ps : List Str) :
    ∀ st : SplitState, SInv k st → SInv k (ps.foldl (splitStep cs k) st) := by
  induction ps with
  | nil => intro st h; exact h
  | cons q qs ih =>
    intro st h
    exact ih _ (sinv_step cs k h q)

theorem sinv_init (k : Nat) : SInv k ⟨[], [], 0⟩ := by
  refine ⟨?_, List.chain'_nil, ?_, ?_, ?_⟩
  · intro c hc; simp at hc
  · intro _; rfl
  · intro hcon; exact absurd rfl hcon
  · intro lc hlc; simp at hlc

/-- Every pair of consecutive chunks produced by `_split_text` satisfies the
amended overlap property, for all parameters. -/
theorem chain_split_text (text : Str) (cs k : Nat) :
    List.Chain' (amendOverlap k) (split_text text cs k) := by
  have h := sinv_foldl cs k (splitNN text) ⟨[], [], 0⟩ (sinv_init k)
  simp only [split_text]
  apply List.Chain'.take
  by_cases hc : pstrip ((splitNN text).foldl (splitStep cs k) ⟨[], [], 0⟩).cur ≠ []
  · rw [if_pos hc]
    apply List.chain'_append.mpr
    refine ⟨h.chain, List.chain'_singleton _, ?_⟩
    intro x hx y hy
    simp at hy
    subst hy
    exact h.link x hx
  · rw [if_neg hc]
    exact h.chain

/-! ## Inputs no longer than `chunk_size` -/

theorem splitNN_ne_nil (t : Str) : splitNN t ≠ [] := by
  induction t using splitNN.induct with
  | case1 => simp [splitNN]
  | case2 rest ih => simp [splitNN]
  | case3 c rest h heq ih =>
    simp only [splitNN]
    rw [heq]
    simp
  | case4 c rest h p ps heq ih =>
    simp only [splitNN]
    rw [heq]
    simp

/-- The paragraphs of `splitNN t` plus the removed two-character separators
account for the whole input. -/
theorem sum_splitNN (t : Str) :
    ((splitNN t).map List.length).sum + 2 * ((splitNN t).length - 1) =
      t.length := by
  induction t using splitNN.induct with
  | case1 => simp [splitNN]
  | case2 rest ih =>
    have hne := splitNN_ne_nil rest
    simp only [splitNN, List.map_cons, List.sum_cons, List.length_cons]
    simp only [List.length_nil]
    have hlen : 1 ≤ (splitNN rest).length := by
      cases hs : splitNN rest with
      | nil => exact absurd hs hne
      | cons a l => simp
    simp at ih ⊢
    omega
  | case3 c rest h heq ih =>
    exact absurd heq (splitNN_ne_nil rest)
  | case4 c rest h p ps heq ih =>
    simp only [splitNN]
    rw [heq]
    rw [heq] at ih
    simp at ih ⊢
    omega

/-- If the input contains any non-whitespace character, some paragraph
survives stripping. -/
theorem splitNN_keep {t : Str} (h : ∃ c ∈ t, pyWS c = false) :
    ∃ p ∈ splitNN t, pstrip p ≠ [] := by
  induction t using splitNN.induct with
  | case1 =>
    obtain ⟨c, hc, -⟩ := h
    simp at hc
  | case2 rest ih =>
    obtain ⟨c, hc, hcw⟩ := h
    have hcr : c ∈ rest := by
      have hnl : ¬(pyWS '\n' = false) := by decide
      rcases List.mem_cons.mp hc with h1 | h2
      · exact absurd (h1 ▸ hcw) hnl
      · rcases List.mem_cons.mp h2 with h3 | h4
        · exact absurd (h3 ▸ hcw) hnl
        · exact h4
    obtain ⟨p, hp, hpne⟩ := ih ⟨c, hcr, hcw⟩
    exact ⟨p, by simp [splitNN]; exact Or.inr hp, hpne⟩
  | case3 c rest h heq ih =>
    exact absurd heq (splitNN_ne_nil rest)
  | case4 c rest hpat p ps heq ih =>
    simp only [splitNN]
    rw [heq]
    obtain ⟨d, hd, hdw⟩ := h
    rcases List.mem_cons.mp hd with rfl | hdr
    · exact ⟨d :: p, List.mem_cons_self _ _,
        pstrip_ne_nil_of_mem (List.mem_cons_self d p) hdw⟩
    · obtain ⟨q, hq, hqne⟩ := ih ⟨d, hdr, hdw⟩
      rw [heq] at hq
      rcases List.mem_cons.mp hq with rfl | hq2
      · obtain ⟨e, he, hew⟩ := exists_nonWS_of_pstrip_ne_nil hqne
        exact ⟨c :: q, List.mem_cons_self _ _,
          pstrip_ne_nil_of_mem (List.mem_cons_of_mem c he) hew⟩
      · exact ⟨q, List.mem_cons_of_mem _ hq2, hqne⟩

/-- Contribution of one paragraph to the loop's `current_size` counter. -/
def paraCost (p : Str) : Nat :=
  if pstrip p = [] then 0 else (pstrip p).length + 2

def chunksCost (ps : List Str) : Nat := (ps.map paraCost).sum

theorem sum_paraCost_le (l : List Str) :
    chunksCost l ≤ (l.map List.length).sum + 2 * l.length := by
  induction l with
  | nil => simp [chunksCost]
  | cons a t ih =>
    have ha : paraCost a ≤ a.length + 2 := by
      unfold paraCost
      split
      · omega
      · have := length_pstrip_le a
        omega
    simp only [chunksCost, List.map_cons, List.sum_cons, List.length_cons] at ih ⊢
    omega

theorem cost_le_length (t : Str) : chunksCost (splitNN t) ≤ t.length + 2 := by
  have hsum := sum_splitNN t
  have hne := splitNN_ne_nil t
  have h2 := sum_paraCost_le (splitNN t)
  have hlen : 1 ≤ (splitNN t).length := by
    cases hs : splitNN t with
    | nil => exact absurd hs hne
    | cons a l => simp
  omega

/-- As long as the total stripped-paragraph budget fits in
`chunk_size + 2`, the loop never closes a chunk: it only accumulates. -/
theorem fold_no_overflow (cs k : Nat) (ps : List Str) :
    ∀ st : SplitState, st.chunks = [] →
    (st.cur ≠ [] → pstrip st.cur ≠ []) →
    st.size + chunksCost ps ≤ cs + 2 →
    (ps.foldl (splitStep cs k) st).chunks = [] ∧
    (ps.foldl (splitStep cs k) st).size ≤ st.size + chunksCost ps ∧
    ((st.cur ≠ [] ∨ ∃ p ∈ ps, pstrip p ≠ []) →
      ((ps.foldl (splitStep cs k) st).cur ≠ [] ∧
       pstrip (ps.foldl (splitStep cs k) st).cur ≠ [])) := by
  induction ps with
  | nil =>
    intro st h1 h2 h3
    refine ⟨h1, by simp [chunksCost], ?_⟩
    rintro (hc | ⟨p, hp, -⟩)
    · exact ⟨hc, h2 hc⟩
    · simp at hp
  | cons q qs ih =>
    intro st h1 h2 h3
    by_cases hq : pstrip q = []
    · rw [List.foldl_cons, splitStep_skip cs k st q hq]
      have hcost : chunksCost (q :: qs) = chunksCost qs := by
        simp [chunksCost, paraCost, hq]
      rw [hcost] at h3
      obtain ⟨g1, g2, g3⟩ := ih st h1 h2 h3
      refine ⟨g1, by rw [hcost]; exact g2, ?_⟩
      rintro (hc | ⟨p, hp, hpne⟩)
      · exact g3 (Or.inl hc)
      · rcases List.mem_cons.mp hp with rfl | hp2
        · exact absurd hq hpne
        · exact g3 (Or.inr ⟨p, hp2, hpne⟩)
    · have hcost : chunksCost (q :: qs) =
          (pstrip q).length + 2 + chunksCost qs := by
        simp [chunksCost, paraCost, hq]
      have hno : ¬(st.size + (pstrip q).length > cs ∧ st.cur ≠ []) := by
        rintro ⟨hgt, -⟩
        omega
      by_cases hcur : st.cur = []
      · rw [List.foldl_cons, splitStep_fresh cs k st q hq hno hcur]
        have h2' : (SplitState.mk st.chunks (pstrip q)
            (st.size + (pstrip q).length + 2)).cur ≠ [] →
            pstrip (SplitState.mk st.chunks (pstrip q)
              (st.size + (pstrip q).length + 2)).cur ≠ [] := by
          intro _
          show pstrip (pstrip q) ≠ []
          rw [pstrip_pstrip]
          exact hq
        obtain ⟨g1, g2, g3⟩ := ih ⟨st.chunks, pstrip q,
          st.size + (pstrip q).length + 2⟩ h1 h2'
          (show st.size + (pstrip q).length + 2 + chunksCost qs ≤ cs + 2 by
            omega)
        refine ⟨g1, ?_, ?_⟩
        · have g2' : (qs.foldl (splitStep cs k) ⟨st.chunks, pstrip q,
              st.size + (pstrip q).length + 2⟩).size ≤
              st.size + (pstrip q).length + 2 + chunksCost qs := g2
          omega
        · intro _
          exact g3 (Or.inl hq)
      · rw [List.foldl_cons, splitStep_acc cs k st q hq hno hcur]
        have hpc := h2 hcur
        have hmem : ∃ c ∈ st.cur ++ nn2 ++ pstrip q, pyWS c = false := by
          obtain ⟨c, hc, hcw⟩ := exists_nonWS_of_pstrip_ne_nil
            (s := pstrip q) (by rw [pstrip_pstrip]; exact hq)
          exact ⟨c, by simp [hc], hcw⟩
        have h2' : (SplitState.mk st.chunks (st.cur ++ nn2 ++ pstrip q)
            (st.size + (pstrip q).length + 2)).cur ≠ [] →
            pstrip (SplitState.mk st.chunks (st.cur ++ nn2 ++ pstrip q)
              (st.size + (pstrip q).length + 2)).cur ≠ [] := by
          intro _
          obtain ⟨c, hc, hcw⟩ := hmem
          exact pstrip_ne_nil_of_mem hc hcw
        obtain ⟨g1, g2, g3⟩ := ih ⟨st.chunks, st.cur ++ nn2 ++ pstrip q,
          st.size + (pstrip q).length + 2⟩ h1 h2'
          (show st.size + (pstrip q).length + 2 + chunksCost qs ≤ cs + 2 by
            omega)
        refine ⟨g1, ?_, ?_⟩
        · have g2' : (qs.foldl (splitStep cs k) ⟨st.chunks,
              st.cur ++ nn2 ++ pstrip q, st.size + (pstrip q).length + 2⟩).size ≤
              st.size + (pstrip q).length + 2 + chunksCost qs := g2
          omega
        · intro _
          refine g3 (Or.inl ?_)
          simp [nn2]

/-- Any input that fits in `chunk_size` and contains a non-whitespace
character produces exactly one chunk. -/
theorem split_text_single {text : Str} {cs : Nat} (k : Nat)
    (hlen : text.length ≤ cs) (hch : ∃ c ∈ text, pyWS c = false) :
    (split_text text cs k).length = 1 := by
  have hcost : chunksCost (splitNN text) ≤ cs + 2 :=
    le_trans (cost_le_length text) (by omega)
  obtain ⟨g1, g2, g3⟩ := fold_no_overflow cs k (splitNN text) ⟨[], [], 0⟩ rfl
    (fun hc => absurd rfl hc) (by simpa using hcost)
  obtain ⟨p, hp, hpne⟩ := splitNN_keep hch
  obtain ⟨hcne, hpcne⟩ := g3 (Or.inr ⟨p, hp, hpne⟩)
  simp only [split_text]
  rw [if_pos hpcne, g1]
  simp

/-! ## The pipeline state machine

`RAGPipeline` holds the in-memory Document Store (`self.documents`) and the
FAISS index (`self.index`), and persists both to `index.faiss` and
`documents.pkl`.  The index is abstracted to its row count (`ntotal`), the
only aspect of it the claims depend on; the unmodelable collaborators (PDF
extraction, the sentence-transformer, filesystem write success) are supplied
as per-call oracles. -/

/-- A chunk record (`Document`, rag_pipeline.py:21-24): content plus the
metadata fields the claims depend on (`filename`, `page`). -/
structure Doc where
  content : Str
  filename : Str
  page : Nat
deriving DecidableEq

/-- Contents of one persisted artifact: deserializable, or corrupt (e.g. a
partial write). -/
inductive FileData (α : Type) where
  | good : α → FileData α
  | corrupt : FileData α
deriving DecidableEq

/-- On-disk state: the two artifacts (`none` = file absent) and their
`.backup` twins used by `index_documents`'s persistence step.  The
serialized index is abstracted to its row count. -/
structure Disk where
  indexFile : Option (FileData Nat)
  docsFile : Option (FileData (List Doc))
  indexBackup : Option (FileData Nat)
  docsBackup : Option (FileData (List Doc))
deriving DecidableEq

/-- In-memory pipeline state: the ordered Document Store and the FAISS index
(`some rowCount`, or `none` when `self.index is None`). -/
structure PState where
  documents : List Doc
  index : Option Nat
deriving DecidableEq

/-- The store/index alignment invariant: `len(store) == index.row_count`,
an absent index counting as zero rows. -/
def aligned (st : PState) : Prop := st.documents.length = st.index.getD 0

instance alignedDecidable (st : PState) : Decidable (aligned st) :=
  inferInstanceAs (Decidable (st.documents.length = st.index.getD 0))

/-- Every failure path of the pipeline raises `ValueError` (foreign
exceptions are wrapped at rag_pipeline.py:619-623). -/
inductive PipelineError where
  | valueError : String → PipelineError
deriving DecidableEq

/-- Per-call oracles for the unmodelable collaborators. -/
structure Env where
  /-- Outcome of the body of the `for file_path in file_paths` loop
  (py:477-523): `_load_pdf`, `_extract_document_info`, per-page
  `_split_text` and `Document` construction, abstracted to the chunk
  records the file contributes (non-empty chunks only, as filtered at
  py:495), or the exception the body raises. -/
  processFile : Str → Except String (List Doc)
  /-- `_create_embeddings_batch` over the full store raises (py:534-551). -/
  embedFail : Bool
  /-- `self.index.add(...)` raises (py:553-565); `faiss.IndexFlatL2(dim)`
  construction itself is assumed to succeed. -/
  indexAddFail : Bool
  /-- `faiss.write_index` raises, leaving a partial target file. -/
  writeIndexFail : Bool
  /-- `pickle.dump` raises, leaving a partial target file. -/
  writeDocsFail : Bool
  /-- the re-embed/rebuild inside the save-failure handler raises
  (py:605-613). -/
  rollbackEmbedFail : Bool
  /-- `_check_memory_usage` raises before any mutation (py:468). -/
  memFail : Bool
  /-- `self.embedder.encode` in `delete_document`'s rebuild raises
  (py:881-886; this also covers `self.embedder` still being `None` there,
  since the attribute access raises and is caught the same way). -/
  deleteEmbedFail : Bool
  /-- `os.remove(index_path)` raises in `_clear_vector_store` (py:926). -/
  removeIndexFail : Bool
  /-- `os.remove(docs_path)` raises in `_clear_vector_store` (py:928). -/
  removeDocsFail : Bool

/-- The per-file loop of `index_documents` (py:477-523): a failing file is
logged and skipped, unless it is the only file of the call, in which case
the error is re-raised as a `ValueError`. -/
def collectChunks (env : Env) (nfiles : Nat) :
    List Str → List Doc → Except PipelineError (List Doc)
  | [], acc => .ok acc
  | f :: rest, acc =>
    match env.processFile f with
    | .ok cs => collectChunks env nfiles rest (acc ++ cs)
    | .error e =>
      if nfiles = 1 then
        .error (.valueError ("Failed to process file: " ++ e))
      else collectChunks env nfiles rest acc

/-- py:594-598: rename those backups that exist back over the artifact
paths (`os.rename` replaces an existing destination). -/
def restoreBackups (d : Disk) : Disk :=
  ⟨(match d.indexBackup with | some b => some b | none => d.indexFile),
   (match d.docsBackup with | some b => some b | none => d.docsFile),
   none, none⟩

/-- The backup/rename/write/restore persistence step of `index_documents`
(py:567-599): existing artifacts are renamed to `.backup`, the new pair is
written, then the backups are removed; on a write failure the backups are
renamed back.  Renames and removes themselves are assumed to succeed. -/
def saveWithBackup (env : Env) (ix : Nat) (docs : List Doc) (disk : Disk) :
    Except PipelineError Unit × Disk :=
  -- py:572-580: move existing artifacts aside
  let d1 : Disk := ⟨none, none, disk.indexFile, disk.docsFile⟩
  if env.writeIndexFail then
    (.error (.valueError "Failed to save index and documents"),
     restoreBackups { d1 with indexFile := some .corrupt })
  else
    let d2 : Disk := { d1 with indexFile := some (.good ix) }
    if env.writeDocsFail then
      (.error (.valueError "Failed to save index and documents"),
       restoreBackups { d2 with docsFile := some .corrupt })
    else
      (.ok (), ⟨some (.good ix), some (.good docs), none, none⟩)

/-- Python `self.documents[:-n]` for `n ≥ 1` (py:549/563/603). -/
def rollbackDocs (docs : List Doc) (n : Nat) : List Doc :=
  docs.take (docs.length - n)

/-- Result of one `index_documents` call. -/
structure IndexResult where
  result : Except PipelineError Unit
  state : PState
  disk : Disk

/-- `index_documents` (py:460-631).  The embedding matrix is computed over
the text of EVERY stored document (py:536: `texts = [doc.content for doc in
self.documents]`, after the extend at py:532), so a successful
`self.index.add` appends `len(self.documents)` rows to whatever the index
already holds. -/
def index_documents (env : Env) (file_paths : List Str) (st : PState)
    (disk : Disk) : IndexResult :=
  if file_paths = [] then
    ⟨.error (.valueError "No file paths provided for indexing"), st, disk⟩
  else if env.memFail then
    ⟨.error (.valueError "Insufficient memory available"), st, disk⟩
  else
    match collectChunks env file_paths.length file_paths [] with
    | .error e => ⟨.error e, st, disk⟩
    | .ok allChunks =>
      if allChunks = [] then
        ⟨.error (.valueError
          "No valid content found in any of the provided files"), st, disk⟩
      else
        -- py:532: self.documents.extend(all_chunks)
        let docs1 := st.documents ++ allChunks
        if env.embedFail then
          ⟨.error (.valueError "Failed to create embeddings"),
           ⟨rollbackDocs docs1 allChunks.length, st.index⟩, disk⟩
        else if env.indexAddFail then
          -- a fresh (empty) index created at py:555-557 survives the failure
          ⟨.error (.valueError "Failed to update FAISS index"),
           ⟨rollbackDocs docs1 allChunks.length, some (st.index.getD 0)⟩,
           disk⟩
        else
          let newRows := st.index.getD 0 + docs1.length
          match saveWithBackup env newRows docs1 disk with
          | (.ok _, d') => ⟨.ok (), ⟨docs1, some newRows⟩, d'⟩
          | (.error _, d') =>
            -- py:601-617: roll the store back and rebuild the index from
            -- the remaining documents (or clear it if that fails too)
            let docs2 := rollbackDocs docs1 allChunks.length
            let ix2 : Option Nat :=
              if docs2.length > 0 then
                if env.rollbackEmbedFail then none else some docs2.length
              else none
            ⟨.error (.valueError "Failed to save processed documents"),
             ⟨docs2, ix2⟩, d'⟩

/-- `_save_index_and_docs` (py:906-918): direct writes, no backups. -/
def save_index_and_docs (env : Env) (ix : Option Nat) (docs : List Doc)
    (disk : Disk) : Except PipelineError Unit × Disk :=
  match ix with
  | some n =>
    if env.writeIndexFail then
      (.error (.valueError "Failed to save index and documents"),
       { disk with indexFile := some .corrupt })
    else
      let d : Disk := { disk with indexFile := some (.good n) }
      if env.writeDocsFail then
        (.error (.valueError "Failed to save index and documents"),
         { d with docsFile := some .corrupt })
      else (.ok (), { d with docsFile := some (.good docs) })
  | none =>
    if env.writeDocsFail then
      (.error (.valueError "Failed to save index and documents"),
       { disk with docsFile := some .corrupt })
    else (.ok (), { disk with docsFile := some (.good docs) })

/-- `_clear_vector_store` (py:920-934): remove whichever artifacts exist;
an `os.remove` failure aborts the rest and yields `False`. -/
def clear_vector_store (env : Env) (disk : Disk) : Bool × Disk :=
  match disk.indexFile with
  | some _ =>
    if env.removeIndexFail then (false, disk)
    else
      let d : Disk := { disk with indexFile := none }
      match d.docsFile with
      | some _ =>
        if env.removeDocsFail then (false, d)
        else (true, { d with docsFile := none })
      | none => (true, d)
  | none =>
    match disk.docsFile with
    | some _ =>
      if env.removeDocsFail then (false, disk)
      else (true, { disk with docsFile := none })
    | none => (true, disk)

/-- Result of a `delete_document` or `clear_all_documents` call. -/
structure DeleteResult where
  ok : Bool
  state : PState
  disk : Disk

/-- `delete_document` (py:858-898). -/
def delete_document (env : Env) (filename : Str) (st : PState)
    (disk : Disk) : DeleteResult :=
  if st.documents = [] then ⟨false, st, disk⟩
  else
    let remaining := st.documents.filter (fun d => ¬ d.filename = filename)
    let removed := st.documents.filter (fun d => d.filename = filename)
    if removed = [] then ⟨false, st, disk⟩
    else if remaining ≠ [] then
      if env.deleteEmbedFail then
        -- py:890-892: exception caught and logged; the store was already
        -- replaced but the index was not rebuilt
        ⟨false, ⟨remaining, st.index⟩, disk⟩
      else
        -- rebuild the index from the survivors, then persist
        match save_index_and_docs env (some remaining.length) remaining disk
        with
        | (.ok _, d') => ⟨true, ⟨remaining, some remaining.length⟩, d'⟩
        | (.error _, d') => ⟨false, ⟨remaining, some remaining.length⟩, d'⟩
    else
      -- py:893-896: nothing left; clear everything (the return value of
      -- `_clear_vector_store` is ignored)
      ⟨true, ⟨[], none⟩, (clear_vector_store env disk).2⟩

/-- `clear_all_documents` (py:900-904); the in-memory state is emptied
unconditionally, whatever it was. -/
def clear_all_documents (env : Env) (_st : PState) (disk : Disk) :
    DeleteResult :=
  let r := clear_vector_store env disk
  ⟨r.1, ⟨[], none⟩, r.2⟩

/-- `_initialize_pipeline` (py:206-229): load the pair only when both
artifacts exist; clear to the empty state when deserializing either fails.
No consistency check between store length and index rows is performed. -/
def init_pipeline (disk : Disk) : PState :=
  match disk.indexFile, disk.docsFile with
  | some (.good n), some (.good ds) => ⟨ds, some n⟩
  | some _, some _ => ⟨[], none⟩
  | _, _ => ⟨[], none⟩

def emptyDisk : Disk := ⟨none, none, none, none⟩

def initState : PState := ⟨[], none⟩

/-! ## Retrieval and re-ranking -/

/-- Python `str.lower()`, for the ASCII range the pipeline works with. -/
def pyLower (s : Str) : Str := s.map Char.toLower

/-- Helper for `pyWords`: accumulates the current word reversed. -/
def pyWordsAux : Str → Str → List Str
  | [], w => if w = [] then [] else [w.reverse]
  | c :: rest, w =>
    if pyWS c then
      if w = [] then pyWordsAux rest []
      else w.reverse :: pyWordsAux rest []
    else pyWordsAux rest (c :: w)

/-- Python `s.split()` with no argument: split on whitespace runs, yielding
no empty words. -/
def pyWords (s : Str) : List Str := pyWordsAux s []

/-- The markdown heading marker `"##"` inserted by `_process_page_text`. -/
def hashhash : Str := ['#', '#']

/-- Lexical relevance score of one chunk, translated from the body of
`_rerank_documents` (py:670-693).  `query_words` is a Python `set`, i.e.
the distinct words; iteration order does not affect the sum. -/
def score (query : Str) (d : Doc) : Nat :=
  let ql := pyLower query
  let cl := pyLower d.content
  let qwords := (pyWords ql).dedup
  let s1 := if ql <:+: cl then 10 else 0
  let s2 := qwords.foldl
    (fun acc w => if w.length > 2 ∧ w <:+: cl then acc + 1 else acc) 0
  let s3 := if hashhash <:+: d.content ∧ (∃ w ∈ qwords, w <:+: cl) then 3
            else 0
  s1 + s2 + s3

/-- The scoring formula in the words of the spec: +10 for a verbatim
case-insensitive query match, +1 per distinct query word of length > 2
present in the content, +3 for a heading marker plus any shared word. -/
def specScore (query : Str) (d : Doc) : Nat :=
  (if pyLower query <:+: pyLower d.content then 10 else 0) +
  (pyWords (pyLower query)).dedup.countP
    (fun w => decide (w.length > 2) && decide (w <:+: pyLower d.content)) +
  (if hashhash <:+: d.content ∧
      (∃ w ∈ (pyWords (pyLower query)).dedup, w <:+: pyLower d.content)
   then 3 else 0)

/-- One step of a stable descending insertion sort on `(score, doc)` pairs:
a later candidate is placed after every earlier candidate scoring at least
as much.  Python's `list.sort(key=..., reverse=True)` (py:696) is a stable
sort, and every stable descending sort on the same keys yields this order. -/
def insertScored (x : Nat × Doc) : List (Nat × Doc) → List (Nat × Doc)
  | [] => [x]
  | y :: ys => if y.1 > x.1 then y :: insertScored x ys else x :: y :: ys

def sortScored : List (Nat × Doc) → List (Nat × Doc)
  | [] => []
  | x :: xs => insertScored x (sortScored xs)

/-- `_rerank_documents` (py:665-697). -/
def rerank_documents (query : Str) (documents : List Doc) : List Doc :=
  if documents = [] then documents
  else
    (sortScored (documents.map (fun d => (score query d, d)))).map Prod.snd

/-- Oracle for the embedding of the query plus `self.index.search`: for a
requested neighbour count `k` it yields the row indices FAISS returns
(int64 values, possibly negative). -/
structure SearchEnv where
  search : Nat → List Int

/-- Python `self.documents[idx]` for an `int64` index that already passed
the `idx < len(self.documents)` guard: non-negative indices count from the
front, negative ones from the back; below `-len` Python would raise
(a real FAISS search over `k ≤ ntotal` rows yields only indices in
`[0, ntotal)`, where this agrees with plain indexing). -/
def fetchDoc (docs : List Doc) (i : Int) : Option Doc :=
  if 0 ≤ i then docs.get? i.toNat
  else if (-i).toNat ≤ docs.length then docs.get? (docs.length - (-i).toNat)
  else none

/-- The gathering loops at py:644-647 / py:654-659: keep, in order, the
documents at the searched indices that pass the bounds guard. -/
def gatherDocs (docs : List Doc) (idxs : List Int) : List Doc :=
  idxs.foldr
    (fun i acc =>
      if i < (docs.length : Int) then
        match fetchDoc docs i with
        | some d => d :: acc
        | none => acc
      else acc) []

/-- `_retrieve_documents` (py:633-663).  Note the Python truthiness test
`if not filename:` at py:643, which treats an empty-string filename like an
absent one. -/
def retrieve_documents (senv : SearchEnv) (st : PState) (query : Str)
    (top_k : Nat) (filename : Option Str) : List Doc :=
  if st.index = none ∨ st.documents.length = 0 then []
  else
    let idxs := senv.search (min (top_k * 2) st.documents.length)
    let pool := gatherDocs st.documents idxs
    match filename with
    | none => (rerank_documents query pool).take top_k
    | some f =>
      if f = [] then (rerank_documents query pool).take top_k
      else
        (rerank_documents query
          (pool.filter (fun d => d.filename = f))).take top_k

/-! ## State-machine lemmas -/

/-- Rolling back `self.documents[:-len(all_chunks)]` after an extend
restores exactly the pre-call store. -/
theorem rollbackDocs_append (a b : List Doc) :
    rollbackDocs (a ++ b) b.length = a := by
  unfold rollbackDocs
  rw [List.length_append, Nat.add_sub_cancel, List.take_left]

/-- With two or more files, the chunk-collection loop never raises: every
failing file contributes nothing and the loop continues. -/
theorem collectChunks_multi (env : Env) (nfiles : Nat) (hn : nfiles ≠ 1) :
    ∀ (files : List Str) (acc : List Doc),
      collectChunks env nfiles files acc =
        .ok (acc ++ files.flatMap (fun f =>
          match env.processFile f with
          | .ok cs => cs
          | .error _ => [])) := by
  intro files
  induction files with
  | nil => intro acc; simp [collectChunks]
  | cons f rest ih =>
    intro acc
    cases hf : env.processFile f with
    | ok cs =>
      simp only [collectChunks, hf]
      rw [ih (acc ++ cs)]
      simp [hf]
    | error e =>
      simp only [collectChunks, hf]
      rw [if_neg hn, ih acc]
      simp [hf]

/-- Whenever `index_documents` raises, the in-memory store is exactly the
pre-call store. -/
theorem index_documents_error_docs (env : Env) (files : List Str)
    (st : PState) (disk : Disk) (e : PipelineError)
    (h : (index_documents env files st disk).result = .error e) :
    (index_documents env files st disk).state.documents = st.documents := by
  revert h
  simp only [index_documents]
  split
  · intro _; rfl
  · split
    · intro _; rfl
    · split
      · intro _; rfl
      · rename_i chunks hchunks
        split
        · intro _; rfl
        · split
          · intro _
            exact rollbackDocs_append st.documents chunks
          · split
            · intro _
              exact rollbackDocs_append st.documents chunks
            · split
              · intro hcon
                exact absurd hcon (by simp)
              · intro _
                exact rollbackDocs_append st.documents chunks

/-- The persistence step of `index_documents` is pair-atomic when both
artifacts already exist: afterwards either both hold the new values (and
the backups are gone), or both hold their old values. -/
theorem saveWithBackup_atomic (env : Env) (ix : Nat) (docs : List Doc)
    (disk : Disk) (v1 : FileData Nat) (v2 : FileData (List Doc))
    (h1 : disk.indexFile = some v1) (h2 : disk.docsFile = some v2) :
    (saveWithBackup env ix docs disk).2 =
        ⟨some (.good ix), some (.good docs), none, none⟩ ∨
    (saveWithBackup env ix docs disk).2 = ⟨some v1, some v2, none, none⟩ := by
  unfold saveWithBackup restoreBackups
  cases env.writeIndexFail with
  | true => right; simp [h1, h2]
  | false =>
    cases env.writeDocsFail with
    | true => right; simp [h1, h2]
    | false => left; simp

/-- The persistence step of `delete_document` is not atomic: a docs-write
failure after a successful index write leaves the index artifact updated
and the documents artifact corrupt. -/
theorem save_index_and_docs_split (env : Env) (n : Nat) (docs : List Doc)
    (disk : Disk) (h1 : env.writeIndexFail = false)
    (h2 : env.writeDocsFail = true) :
    (save_index_and_docs env (some n) docs disk).2.indexFile =
        some (.good n) ∧
    (save_index_and_docs env (some n) docs disk).2.docsFile =
        some .corrupt ∧
    (save_index_and_docs env (some n) docs disk).1 =
        .error (.valueError "Failed to save index and documents") := by
  unfold save_index_and_docs
  rw [h1, h2]
  simp

/-- On initialization, the pipeline starts empty whenever one of the two
artifacts is absent or fails to deserialize, and loads a readable pair
verbatim, without any store-length/row-count consistency check. -/
theorem init_pipeline_cases (disk : Disk) :
    ((disk.indexFile = none ∨ disk.docsFile = none) →
      init_pipeline disk = ⟨[], none⟩) ∧
    ((disk.indexFile = some .corrupt ∨ disk.docsFile = some .corrupt) →
      init_pipeline disk = ⟨[], none⟩) ∧
    (∀ (n : Nat) (ds : List Doc), disk.indexFile = some (.good n) →
      disk.docsFile = some (.good ds) → init_pipeline disk = ⟨ds, some n⟩) := by
  refine ⟨?_, ?_, ?_⟩
  · rintro (h | h)
    · unfold init_pipeline
      rw [h]
    · unfold init_pipeline
      rw [h]
      cases hif : disk.indexFile with
      | none => rfl
      | some v => cases v <;> rfl
  · rintro (h | h) <;> unfold init_pipeline <;> rw [h]
    · cases hdf : disk.docsFile with
      | none => rfl
      | some v => cases v <;> rfl
    · cases hif : disk.indexFile with
      | none => rfl
      | some v => cases v <;> rfl
  · intro n ds h1 h2
    unfold init_pipeline
    rw [h1, h2]

/-- `clear_all_documents` always empties the in-memory state; its return
value reports only whether removing the existing artifact files succeeded. -/
theorem clear_all_documents_spec (env : Env) (st : PState) (disk : Disk) :
    (clear_all_documents env st disk).state = ⟨[], none⟩ ∧
    ((clear_all_documents env st disk).ok = true ↔
      ((disk.indexFile.isSome → env.removeIndexFail = false) ∧
       (disk.docsFile.isSome → env.removeDocsFail = false))) := by
  refine ⟨rfl, ?_⟩
  show (clear_vector_store env disk).1 = true ↔ _
  unfold clear_vector_store
  cases hif : disk.indexFile with
  | none =>
    cases hdf : disk.docsFile with
    | none => simp
    | some v =>
      cases hrd : env.removeDocsFail <;> simp [hrd]
  | some v =>
    cases hri : env.removeIndexFail with
    | true => simp [hri]
    | false =>
      cases hdf : disk.docsFile with
      | none => simp [hri, hdf]
      | some w =>
        cases hrd : env.removeDocsFail <;> simp [hri, hrd, hdf]

/-! ## Re-ranking lemmas -/

theorem foldl_count (P : Str → Prop) [DecidablePred P] (l : List Str) :
    ∀ acc : Nat,
      l.foldl (fun a w => if P w then a + 1 else a) acc =
        acc + l.countP (fun w => decide (P w)) := by
  induction l with
  | nil => intro acc; simp
  | cons w ws ih =>
    intro acc
    rw [List.foldl_cons]
    by_cases hw : P w
    · rw [if_pos hw, ih (acc + 1), List.countP_cons,
        if_pos (by simpa using hw)]
      omega
    · rw [if_neg hw, ih acc, List.countP_cons,
        if_neg (by simpa using hw)]
      omega

/-- The source's running-total loop computes exactly the spec's formula. -/
theorem score_eq_specScore (q : Str) (d : Doc) : score q d = specScore q d := by
  simp only [score, specScore]
  have h := foldl_count
    (fun w => w.length > 2 ∧ w <:+: pyLower d.content)
    ((pyWords (pyLower q)).dedup) 0
  rw [h]
  have hfun : (fun w => decide (w.length > 2 ∧ w <:+: pyLower d.content)) =
      fun w => decide (w.length > 2) &&
        decide (w <:+: pyLower d.content) := by
    funext w
    exact Bool.decide_and _ _
  rw [hfun]
  omega

theorem insertScored_perm (x : Nat × Doc) (l : List (Nat × Doc)) :
    (insertScored x l).Perm (x :: l) := by
  induction l with
  | nil => exact List.Perm.refl _
  | cons y ys ih =>
    unfold insertScored
    split
    · exact (ih.cons y).trans (List.Perm.swap x y ys)
    · exact List.Perm.refl _

theorem sortScored_perm (l : List (Nat × Doc)) : (sortScored l).Perm l := by
  induction l with
  | nil => exact List.Perm.refl _
  | cons x xs ih =>
    exact (insertScored_perm x (sortScored xs)).trans (ih.cons x)

theorem chain_insertScored {x : Nat × Doc} {l : List (Nat × Doc)}
    (h : List.Chain' (fun a b => b.1 ≤ a.1) l) :
    List.Chain' (fun a b => b.1 ≤ a.1) (insertScored x l) := by
  induction l with
  | nil => simp [insertScored]
  | cons y ys ih =>
    unfold insertScored
    split
    · rename_i hgt
      rw [List.chain'_cons'] at h
      apply List.chain'_cons'.mpr
      refine ⟨?_, ih h.2⟩
      intro b hb
      cases ys with
      | nil =>
        simp [insertScored] at hb
        subst hb
        omega
      | cons z zs =>
        unfold insertScored at hb
        split at hb
        · simp at hb
          subst hb
          exact h.1 z rfl
        · simp at hb
          subst hb
          omega
    · rename_i hle
      apply List.chain'_cons'.mpr
      refine ⟨?_, h⟩
      intro b hb
      simp at hb
      subst hb
      omega

theorem chain_sortScored (l : List (Nat × Doc)) :
    List.Chain' (fun a b => b.1 ≤ a.1) (sortScored l) := by
  induction l with
  | nil => exact List.chain'_nil
  | cons x xs ih => exact chain_insertScored ih

theorem filter_insertScored (x : Nat × Doc) (l : List (Nat × Doc)) (s : Nat) :
    (insertScored x l).filter (fun p => p.1 = s) =
      if x.1 = s then x :: l.filter (fun p => p.1 = s)
      else l.filter (fun p => p.1 = s) := by
  induction l with
  | nil =>
    unfold insertScored
    by_cases hx : x.1 = s <;> simp [hx]
  | cons y ys ih =>
    unfold insertScored
    split
    · rename_i hgt
      by_cases hx : x.1 = s
      · have hy : ¬ y.1 = s := by omega
        rw [List.filter_cons, if_neg (by simpa using hy), ih, if_pos hx,
          if_pos hx, List.filter_cons, if_neg (by simpa using hy)]
      · rw [List.filter_cons, ih, if_neg hx, if_neg hx, List.filter_cons]
    · by_cases hx : x.1 = s
      · rw [if_pos hx, List.filter_cons, if_pos (by simpa using hx)]
      · rw [if_neg hx, List.filter_cons, if_neg (by simpa using hx)]

theorem filter_sortScored (l : List (Nat × Doc)) (s : Nat) :
    (sortScored l).filter (fun p => p.1 = s) =
      l.filter (fun p => p.1 = s) := by
  induction l with
  | nil => rfl
  | cons x xs ih =>
    show (insertScored x (sortScored xs)).filter _ = _
    rw [filter_insertScored, ih]
    by_cases hx : x.1 = s
    · rw [if_pos hx, List.filter_cons, if_pos (by simpa using hx)]
    · rw [if_neg hx, List.filter_cons, if_neg (by simpa using hx)]

theorem mem_scored_pairs (q : Str) (docs : List Doc)
    {p : Nat × Doc}
    (hp : p ∈ sortScored (docs.map (fun d => (score q d, d)))) :
    p.1 = score q p.2 := by
  have hm := (sortScored_perm _).mem_iff.mp hp
  obtain ⟨d, -, hd⟩ := List.mem_map.mp hm
  rw [← hd]

theorem chain_fst_to_score (q : Str) (L : List (Nat × Doc))
    (hm : ∀ p ∈ L, p.1 = score q p.2)
    (hc : List.Chain' (fun a b => b.1 ≤ a.1) L) :
    List.Chain' (fun a b => score q b.2 ≤ score q a.2) L := by
  induction L with
  | nil => exact List.chain'_nil
  | cons a t ih =>
    rw [List.chain'_cons'] at hc ⊢
    refine ⟨?_, ih (fun p hp => hm p (List.mem_cons_of_mem a hp)) hc.2⟩
    intro b hb
    have hbm : b ∈ t := List.mem_of_mem_head? hb
    rw [← hm a (List.mem_cons_self a t), ← hm b (List.mem_cons_of_mem a hbm)]
    exact hc.1 b hb

/-- Re-ranking permutes its input (nothing is added or dropped). -/
theorem rerank_perm (q : Str) (docs : List Doc) :
    (rerank_documents q docs).Perm docs := by
  unfold rerank_documents
  split
  · exact List.Perm.refl _
  · refine ((sortScored_perm _).map Prod.snd).trans ?_
    rw [List.map_map]
    have : (Prod.snd ∘ fun d => (score q d, d)) = id := by
      funext d; rfl
    rw [this, List.map_id]

/-- Re-ranked output is in weakly descending score order. -/
theorem rerank_sorted (q : Str) (docs : List Doc) :
    List.Chain' (fun a b => score q b ≤ score q a)
      (rerank_documents q docs) := by
  unfold rerank_documents
  split
  · rename_i h
    rw [h]
    exact List.chain'_nil
  · rw [List.chain'_map]
    exact chain_fst_to_score q _ (fun p hp => mem_scored_pairs q docs hp)
      (chain_sortScored _)

/-- Stability: for every score value, the chunks attaining it appear in the
output in exactly the order they had in the input. -/
theorem rerank_stable (q : Str) (docs : List Doc) (s : Nat) :
    (rerank_documents q docs).filter (fun d => score q d = s) =
      docs.filter (fun d => score q d = s) := by
  unfold rerank_documents
  split
  · rfl
  · rw [List.filter_map]
    have h1 : (sortScored (docs.map (fun d => (score q d, d)))).filter
        ((fun d => decide (score q d = s)) ∘ Prod.snd) =
        (sortScored (docs.map (fun d => (score q d, d)))).filter
          (fun p => p.1 = s) := by
      apply List.filter_congr
      intro p hp
      simp only [Function.comp]
      rw [mem_scored_pairs q docs hp]
    rw [h1, filter_sortScored]
    have h2 : (docs.map (fun d => (score q d, d))).filter
        (fun p => p.1 = s) =
        (docs.filter (fun d => score q d = s)).map
          (fun d => (score q d, d)) := by
      rw [List.filter_map]
      apply congrArg
      apply List.filter_congr
      intro d _
      simp [Function.comp]
    rw [h2, List.map_map]
    have : (Prod.snd ∘ fun d => (score q d, d)) = id := by
      funext d; rfl
    rw [this, List.map_id]

/-! ## Retrieval lemmas -/

theorem mem_rerank {q : Str} {docs : List Doc} {d : Doc}
    (h : d ∈ rerank_documents q docs) : d ∈ docs :=
  (rerank_perm q docs).mem_iff.mp h

/-- An empty index or an empty store yields the empty result. -/
theorem retrieve_empty (senv : SearchEnv) (st : PState) (q : Str)
    (top_k : Nat) (filename : Option Str)
    (h : st.index = none ∨ st.documents = []) :
    retrieve_documents senv st q top_k filename = [] := by
  unfold retrieve_documents
  rw [if_pos]
  rcases h with h | h
  · exact Or.inl h
  · exact Or.inr (by rw [h]; rfl)

/-- With a non-empty filename filter, every returned chunk's filename is
exactly the requested one. -/
theorem retrieve_filtered (senv : SearchEnv) (st : PState) (q : Str)
    (top_k : Nat) (f : Str) (hf : f ≠ []) (d : Doc)
    (hd : d ∈ retrieve_documents senv st q top_k (some f)) :
    d.filename = f := by
  revert hd
  simp only [retrieve_documents]
  split
  · intro hd; simp at hd
  · intro hd
    have hd1 : d ∈ rerank_documents q
        ((gatherDocs st.documents
          (senv.search (min (top_k * 2) st.documents.length))).filter
            (fun x => x.filename = f)) :=
      List.mem_of_mem_take hd
    have hd2 := mem_rerank hd1
    have := (List.mem_filter.mp hd2).2
    simpa using this

/-- The search oracle is consulted only at `min(2*top_k, len(documents))`:
two searches agreeing there produce identical retrievals. -/
theorem retrieve_search_k (senv senv' : SearchEnv) (st : PState) (q : Str)
    (top_k : Nat) (filename : Option Str)
    (h : senv.search (min (top_k * 2) st.documents.length) =
         senv'.search (min (top_k * 2) st.documents.length)) :
    retrieve_documents senv st q top_k filename =
      retrieve_documents senv' st q top_k filename := by
  unfold retrieve_documents
  rw [h]

/-- When no candidate survives the filename filter, the result is empty
(no exception is raised). -/
theorem retrieve_none_surviving (senv : SearchEnv) (st : PState) (q : Str)
    (top_k : Nat) (f : Str) (hf : f ≠ [])
    (hall : ∀ d ∈ gatherDocs st.documents
        (senv.search (min (top_k * 2) st.documents.length)),
        d.filename ≠ f) :
    retrieve_documents senv st q top_k (some f) = [] := by
  simp only [retrieve_documents]
  split
  · rfl
  · have hnil : (gatherDocs st.documents
        (senv.search (min (top_k * 2) st.documents.length))).filter
          (fun x => x.filename = f) = [] := by
      rw [List.filter_eq_nil_iff]
      intro d hd
      simpa using hall d hd
    rw [hnil]
    simp [rerank_documents]

/-! ## Concrete fixtures -/

def docA : Doc := ⟨['x'], ['a'], 0⟩

def docB : Doc := ⟨['y'], ['b'], 0⟩

/-- An environment in which no collaborator fails. -/
def envOk (f : Str → Except String (List Doc)) : Env :=
  ⟨f, false, false, false, false, false, false, false, false, false⟩

def envIngestA : Env := envOk (fun _ => .ok [docA])

def envIngestB : Env := envOk (fun _ => .ok [docB])

def envEmbedFail : Env := { envIngestA with embedFail := true }

def envDocsWriteFail : Env := { envIngestA with writeDocsFail := true }

def envOneBad : Env := { envIngestA with processFile := fun _ => .error "boom" }

def envHalf : Env :=
  { envIngestA with
    processFile := fun f => if f = ['a'] then .error "boom" else .ok [docB] }

def delDisk : Disk := ⟨some (.good 2), some (.good [docA, docB]), none, none⟩

def searchOne : SearchEnv := ⟨fun _ => [0]⟩

/-- Input for the C5 counterexample: a 400-character paragraph whose
150th-from-last character is a space, followed by a 900-character paragraph
that forces a chunk boundary at the default parameters. -/
def c5text : Str :=
  List.replicate 250 'A' ++ [' '] ++ List.replicate 149 'B' ++ nn2 ++
    List.replicate 900 'C'

def c5chunk0 : Str := List.replicate 250 'A' ++ [' '] ++ List.replicate 149 'B'

def c5chunk1 : Str := List.replicate 149 'B' ++ nn2 ++ List.replicate 900 'C'

example : split_text ['h', 'i'] 1200 150 = [['h', 'i']] := by decide

example : split_text [' '] 1200 150 = [] := by decide

example :
    split_text ['a', 'b', 'c', ' ', 'd', 'e', 'f', '\n', '\n',
                'x', 'y', 'z', 'z', 'y'] 8 4 =
    [['a', 'b', 'c', ' ', 'd', 'e', 'f'],
     ['d', 'e', 'f', '\n', '\n', 'x', 'y', 'z', 'z', 'y']] := by decide

/-! ## The claims -/

/-- C1: the claimed invariant `len(store) == index.row_count` after every
pipeline call is violated by the code: a second successful
`index_documents` call embeds the text of the ENTIRE store (old + new
chunks) and `add`s all of those rows to the already-populated index
(rag_pipeline.py:532-559), so after two successful one-chunk ingests the
store holds 2 documents while the index holds 1 + 2 = 3 rows. -/
theorem C1_alignment_bug_eval :
    (index_documents envIngestA [['a']] initState emptyDisk).result =
      .ok () ∧
    aligned (index_documents envIngestA [['a']] initState emptyDisk).state ∧
    (index_documents envIngestB [['b']]
      (index_documents envIngestA [['a']] initState emptyDisk).state
      (index_documents envIngestA [['a']] initState emptyDisk).disk).result =
      .ok () ∧
    (index_documents envIngestB [['b']]
      (index_documents envIngestA [['a']] initState emptyDisk).state
      (index_documents envIngestA [['a']] initState emptyDisk).disk).state =
      ⟨[docA, docB], some 3⟩ ∧
    ¬ aligned (index_documents envIngestB [['b']]
      (index_documents envIngestA [['a']] initState emptyDisk).state
      (index_documents envIngestA [['a']] initState emptyDisk).disk).state := by
  refine ⟨rfl, by decide, rfl, rfl, by decide⟩

/-- C2: whenever `index_documents` raises — in particular after new chunks
were appended (embedding failure, index-update failure, persistence
failure) — the in-memory store is restored to exactly its pre-call
contents before the error propagates, and the error is the single kind
`ValueError`. -/
theorem C2_rollback_on_error (env : Env) (files : List Str) (st : PState)
    (disk : Disk) (e : PipelineError)
    (h : (index_documents env files st disk).result = .error e) :
    (index_documents env files st disk).state.documents = st.documents ∧
    ∃ msg, e = .valueError msg :=
  ⟨index_documents_error_docs env files st disk e h,
   by cases e with | valueError m => exact ⟨m, rfl⟩⟩

/-- Witness for C2 at a concrete embedding failure on a one-document
store. -/
theorem C2_rollback_on_error_witness :
    (index_documents envEmbedFail [['a']] ⟨[docA], some 1⟩
      emptyDisk).state.documents = [docA] ∧
    ∃ msg, (PipelineError.valueError "Failed to create embeddings") =
      .valueError msg :=
  C2_rollback_on_error envEmbedFail [['a']] ⟨[docA], some 1⟩ emptyDisk
    (.valueError "Failed to create embeddings") rfl

/-- C3 counterexample: `delete_document`'s persistence step
(`_save_index_and_docs`, rag_pipeline.py:906-918) takes no backups: with
the index write succeeding and the docs write failing, the on-disk index
artifact is updated (2 rows → 1 row) while the documents artifact is left
corrupt — the two artifacts are not updated together, contradicting the
claim for delete_document's persisting operation. -/
theorem C3_counterexample :
    (delete_document envDocsWriteFail ['a'] ⟨[docA, docB], some 2⟩
      delDisk).disk.indexFile = some (.good 1) ∧
    (delete_document envDocsWriteFail ['a'] ⟨[docA, docB], some 2⟩
      delDisk).disk.docsFile = some .corrupt ∧
    (delete_document envDocsWriteFail ['a'] ⟨[docA, docB], some 2⟩
      delDisk).ok = false :=
  ⟨rfl, rfl, rfl⟩

/-- C3 amended: the rename-based backup/restore/delete protocol protects
only `index_documents`' persistence step — when both artifacts existed
beforehand it updates both or restores both; `delete_document` persists via
`_save_index_and_docs`, which writes the artifacts directly with no
backups, so a docs-write failure after a successful index write updates one
artifact and corrupts the other. -/
theorem C3_amended_persistence (env : Env) (ix n : Nat) (docs : List Doc)
    (disk : Disk) (v1 : FileData Nat) (v2 : FileData (List Doc)) :
    (disk.indexFile = some v1 → disk.docsFile = some v2 →
      ((saveWithBackup env ix docs disk).2 =
          ⟨some (.good ix), some (.good docs), none, none⟩ ∨
       (saveWithBackup env ix docs disk).2 = ⟨some v1, some v2, none, none⟩)) ∧
    (env.writeIndexFail = false → env.writeDocsFail = true →
      (save_index_and_docs env (some n) docs disk).2.indexFile =
          some (.good n) ∧
      (save_index_and_docs env (some n) docs disk).2.docsFile =
          some .corrupt ∧
      (save_index_and_docs env (some n) docs disk).1 =
          .error (.valueError "Failed to save index and documents")) :=
  ⟨fun h1 h2 => saveWithBackup_atomic env ix docs disk v1 v2 h1 h2,
   fun h1 h2 => save_index_and_docs_split env n docs disk h1 h2⟩

/-- Witness for C3 amended at a concrete disk with both artifacts
present. -/
theorem C3_amended_persistence_witness :
    ((saveWithBackup envDocsWriteFail 5 [docA] delDisk).2 =
        ⟨some (.good 5), some (.good [docA]), none, none⟩ ∨
     (saveWithBackup envDocsWriteFail 5 [docA] delDisk).2 =
        ⟨some (.good 2), some (.good [docA, docB]), none, none⟩) ∧
    ((save_index_and_docs envDocsWriteFail (some 1) [docA] delDisk).2.indexFile
        = some (.good 1) ∧
     (save_index_and_docs envDocsWriteFail (some 1) [docA] delDisk).2.docsFile
        = some .corrupt ∧
     (save_index_and_docs envDocsWriteFail (some 1) [docA] delDisk).1 =
        .error (.valueError "Failed to save index and documents")) := by
  have h := C3_amended_persistence envDocsWriteFail 5 1 [docA] delDisk
    (.good 2) (.good [docA, docB])
  exact ⟨h.1 rfl rfl, h.2 rfl rfl⟩

/-- C4 counterexample: `_initialize_pipeline` performs no store-length /
row-count consistency check: a readable pair claiming 2 index rows but one
stored document is loaded as-is, not treated as unrecoverable — the
pipeline does not start in the empty state. -/
theorem C4_counterexample :
    init_pipeline ⟨some (.good 2), some (.good [docA]), none, none⟩ =
      ⟨[docA], some 2⟩ ∧
    ¬ aligned (init_pipeline
        ⟨some (.good 2), some (.good [docA]), none, none⟩) :=
  ⟨rfl, by decide⟩

/-- C4 amended: on initialization the pipeline starts empty when one of the
two artifacts is absent, and when either artifact fails to deserialize; a
pair that deserializes is loaded verbatim — no mismatch check between store
length and index rows is performed. -/
theorem C4_amended_load (disk : Disk) :
    ((disk.indexFile = none ∨ disk.docsFile = none) →
      init_pipeline disk = ⟨[], none⟩) ∧
    ((disk.indexFile = some .corrupt ∨ disk.docsFile = some .corrupt) →
      init_pipeline disk = ⟨[], none⟩) ∧
    (∀ (n : Nat) (ds : List Doc), disk.indexFile = some (.good n) →
      disk.docsFile = some (.good ds) → init_pipeline disk = ⟨ds, some n⟩) :=
  init_pipeline_cases disk

/-- Witness for C4 amended at three concrete disks. -/
theorem C4_amended_load_witness :
    init_pipeline ⟨none, some (.good [docA]), none, none⟩ = ⟨[], none⟩ ∧
    init_pipeline ⟨some .corrupt, some (.good [docA]), none, none⟩ =
      ⟨[], none⟩ ∧
    init_pipeline ⟨some (.good 1), some (.good [docA]), none, none⟩ =
      ⟨[docA], some 1⟩ :=
  ⟨(C4_amended_load _).1 (Or.inl rfl),
   (C4_amended_load _).2.1 (Or.inl rfl),
   (C4_amended_load _).2.2 1 [docA] rfl rfl⟩

/-- C5 counterexample at the default parameters (chunk_size 1200,
chunk_overlap 150): the last 150 characters of the first chunk start with a
space, which the closing `strip()` removes from the start of the second
chunk, so the claimed verbatim overlap fails. -/
theorem C5_counterexample :
    ¬ List.Chain' (claimOverlap 150) (split_text c5text 1200 150) := by
  intro hchain
  have he : split_text c5text 1200 150 = [c5chunk0, c5chunk1] := by decide
  rw [he, List.chain'_pair] at hchain
  unfold claimOverlap at hchain
  rw [List.prefix_iff_eq_take] at hchain
  revert hchain
  decide

/-- C5 amended: for every input and all parameters, consecutive chunks
satisfy the overlap property up to leading whitespace: the last
`chunk_overlap` characters of `c[i]` (the whole of `c[i]` when it is no
longer), with leading whitespace removed, appear at the start of
`c[i+1]`. -/
theorem C5_amended_overlap (text : Str) (cs k : Nat) :
    List.Chain' (amendOverlap k) (split_text text cs k) :=
  chain_split_text text cs k

/-- C6: an empty `file_paths` list raises a descriptive error; a
single-file call whose file fails raises; with two or more files every
failing file is skipped and the chunk collection is exactly the
concatenation of the successful files' chunks. -/
theorem C6_per_file_policy (env : Env) (files : List Str) (st : PState)
    (disk : Disk) :
    (files = [] →
      index_documents env files st disk =
        ⟨.error (.valueError "No file paths provided for indexing"),
         st, disk⟩) ∧
    (∀ (f : Str) (e : String), files = [f] → env.memFail = false →
      env.processFile f = .error e →
      index_documents env files st disk =
        ⟨.error (.valueError ("Failed to process file: " ++ e)),
         st, disk⟩) ∧
    (2 ≤ files.length →
      collectChunks env files.length files [] =
        .ok (files.flatMap (fun f =>
          match env.processFile f with
          | .ok cs => cs
          | .error _ => []))) := by
  refine ⟨?_, ?_, ?_⟩
  · intro h
    subst h
    rfl
  · intro f e hfe hm he
    subst hfe
    simp [index_documents, collectChunks, hm, he]
  · intro h2
    have := collectChunks_multi env files.length (by omega) files []
    simpa using this

/-- Witness for C6: the three behaviours at concrete calls. -/
theorem C6_per_file_policy_witness :
    (index_documents envIngestA [] initState emptyDisk =
      ⟨.error (.valueError "No file paths provided for indexing"),
       initState, emptyDisk⟩) ∧
    (index_documents envOneBad [['a']] initState emptyDisk =
      ⟨.error (.valueError ("Failed to process file: " ++ "boom")),
       initState, emptyDisk⟩) ∧
    (collectChunks envHalf 2 [['a'], ['b']] [] = .ok [docB]) := by
  refine ⟨(C6_per_file_policy envIngestA [] initState emptyDisk).1 rfl,
    (C6_per_file_policy envOneBad [['a']] initState emptyDisk).2.1
      ['a'] "boom" rfl rfl rfl, ?_⟩
  exact (C6_per_file_policy envHalf [['a'], ['b']] initState emptyDisk).2.2
    (by decide)

/-- C7 counterexample: a filename argument that is the empty string is
falsy in Python (`if not filename:`, rag_pipeline.py:643), so filtering is
silently disabled and a chunk whose filename is `"a"` — not equal to the
given `""` — is returned. -/
theorem C7_counterexample :
    retrieve_documents searchOne ⟨[docA], some 1⟩ ['q'] 5 (some []) =
      [docA] ∧
    docA.filename ≠ ([] : Str) :=
  ⟨rfl, by decide⟩

/-- C7 amended: retrieval returns `[]` on an empty index/store and when
nothing survives filtering; the search oracle is consulted exactly at
`min(2*top_k, len(documents))`; and for a NON-EMPTY filename argument every
returned chunk's filename equals it (an empty-string filename disables
filtering via Python truthiness). -/
theorem C7_amended_retrieval (senv senv' : SearchEnv) (st : PState)
    (q : Str) (top_k : Nat) (filename : Option Str) (f : Str) :
    (st.index = none ∨ st.documents = [] →
      retrieve_documents senv st q top_k filename = []) ∧
    (senv.search (min (top_k * 2) st.documents.length) =
        senv'.search (min (top_k * 2) st.documents.length) →
      retrieve_documents senv st q top_k filename =
        retrieve_documents senv' st q top_k filename) ∧
    (f ≠ [] → ∀ d ∈ retrieve_documents senv st q top_k (some f),
      d.filename = f) ∧
    (f ≠ [] → (∀ d ∈ gatherDocs st.documents
        (senv.search (min (top_k * 2) st.documents.length)),
        d.filename ≠ f) →
      retrieve_documents senv st q top_k (some f) = []) :=
  ⟨retrieve_empty senv st q top_k filename,
   retrieve_search_k senv senv' st q top_k filename,
   fun hf d hd => retrieve_filtered senv st q top_k f hf d hd,
   fun hf hall => retrieve_none_surviving senv st q top_k f hf hall⟩

/-- Witness for C7 amended at concrete retrievals. -/
theorem C7_amended_retrieval_witness :
    retrieve_documents searchOne ⟨[], none⟩ ['q'] 5 none = [] ∧
    retrieve_documents searchOne ⟨[docA], some 1⟩ ['q'] 5 none =
      retrieve_documents searchOne ⟨[docA], some 1⟩ ['q'] 5 none ∧
    docA.filename = ['a'] ∧
    retrieve_documents searchOne ⟨[docA], some 1⟩ ['q'] 5 (some ['b']) =
      [] := by
  refine ⟨(C7_amended_retrieval searchOne searchOne ⟨[], none⟩ ['q'] 5 none
      ['a']).1 (Or.inr rfl),
    (C7_amended_retrieval searchOne searchOne ⟨[docA], some 1⟩ ['q'] 5 none
      ['a']).2.1 rfl, ?_, ?_⟩
  · exact (C7_amended_retrieval searchOne searchOne ⟨[docA], some 1⟩ ['q'] 5
      none ['a']).2.2.1 (by decide) docA (by decide)
  · exact (C7_amended_retrieval searchOne searchOne ⟨[docA], some 1⟩ ['q'] 5
      none ['b']).2.2.2 (by decide) (by decide)

/-- C8: re-ranking scores chunks exactly by the spec's formula (+10
verbatim case-insensitive query match, +1 per distinct query word longer
than 2 present in the content, +3 for a heading marker plus any shared
word), returns a permutation of the candidate pool in weakly descending
score order, and is stable: chunks with equal scores keep their order from
the distance-based candidate list. -/
theorem C8_rerank_spec (q : Str) (docs : List Doc) (s : Nat) (d : Doc) :
    (rerank_documents q docs).Perm docs ∧
    List.Chain' (fun a b => score q b ≤ score q a)
      (rerank_documents q docs) ∧
    (rerank_documents q docs).filter (fun x => score q x = s) =
      docs.filter (fun x => score q x = s) ∧
    score q d = specScore q d :=
  ⟨rerank_perm q docs, rerank_sorted q docs, rerank_stable q docs s,
   score_eq_specScore q d⟩

/-- C9 counterexample: a whitespace-only input of length 1 ≤ chunk_size
produces zero chunks, not exactly one. -/
theorem C9_counterexample :
    ([' '] : Str).length ≤ 1200 ∧ (split_text [' '] 1200 150).length = 0 :=
  ⟨by decide, by decide⟩

/-- C9 amended: every input of length at most `chunk_size` that contains at
least one non-whitespace character yields exactly one chunk
(whitespace-only inputs yield none). -/
theorem C9_amended_single_chunk (text : Str) (cs k : Nat)
    (hlen : text.length ≤ cs) (hch : ∃ c ∈ text, pyWS c = false) :
    (split_text text cs k).length = 1 :=
  split_text_single k hlen hch

/-- Witness for C9 amended at a concrete two-character input. -/
theorem C9_amended_single_chunk_witness :
    (split_text ['h', 'i'] 1200 150).length = 1 :=
  C9_amended_single_chunk ['h', 'i'] 1200 150 (by decide)
    ⟨'h', by decide, by decide⟩

/-- C10: `clear_all_documents` empties the in-memory store and discards the
index in every state, and returns `True` exactly when removing the existing
persisted artifacts succeeded — a `False` return still leaves the in-memory
state empty while on-disk files may remain. -/
theorem C10_clear_semantics (env : Env) (st : PState) (disk : Disk) :
    (clear_all_documents env st disk).state = ⟨[], none⟩ ∧
    ((clear_all_documents env st disk).ok = true ↔
      ((disk.indexFile.isSome → env.removeIndexFail = false) ∧
       (disk.docsFile.isSome → env.removeDocsFail = false))) :=
  clear_all_documents_spec env st disk

end LightRAG
